import Mathlib

/-!
Verification of the markdown-to-rich-text converter of `internal/telegram/mdparser`
(function `Parse` and type `converter`): a tree-walking renderer that flattens a
CommonMark tree into plain text plus a list of Telegram message entities whose
offsets and lengths are measured in UTF-16 code units of the output text.

The converter itself (the `converter` methods, `utf16Len`, and the string
primitives they use) is embedded below from the Go source.  The external
CommonMark tree parser (`gomarkdown`) and the external table layouter
(`mdtable.Generate`) are not part of the repository; trees for concrete inputs
and the table layouter are modelled from the specification where a claim needs
them, and are marked as such in their doc comments.
-/

/-- Entity kinds used by the converter (the telebot entity-type constants that
appear in the source: bold, italic, underline, strikethrough, code, pre,
text_link, blockquote). -/
inductive EntityType where
  | bold
  | italic
  | underline
  | strikethrough
  | code
  | codeBlock
  | textLink
  | blockquote
deriving DecidableEq, Repr

/-- Embedding of `telebot.MessageEntity` restricted to the fields the converter
sets: `Type`, `Offset`, `Length`, `URL`, `Language`. -/
structure MessageEntity where
  type : EntityType
  offset : Nat
  length : Nat
  url : String := ""
  language : String := ""
deriving DecidableEq, Repr

/-- UTF-16 width of one Unicode scalar value, from the body of `utf16Len`:
1 code unit for codepoints up to 0xFFFF, 2 (a surrogate pair) above. -/
def utf16Width (ch : Char) : Nat :=
  if ch.toNat ≤ 0xFFFF then 1 else 2

/-- Embedding of `utf16Len`: total UTF-16 code-unit count of a character
sequence (the Go loop `for _, r := range s { if r <= 0xFFFF { n++ } else { n += 2 } }`). -/
def utf16LenChars : List Char → Nat
  | [] => 0
  | ch :: rest => utf16Width ch + utf16LenChars rest

/-- Embedding of `strings.ReplaceAll(str, "\r\n", "\n")` as used by
`converter.writeText`: a single left-to-right pass replacing each
non-overlapping occurrence of CR LF by LF. -/
def normalizeChars : List Char → List Char
  | [] => []
  | '\r' :: '\n' :: rest => '\n' :: normalizeChars rest
  | ch :: rest => ch :: normalizeChars rest

/-- Embedding of `strings.TrimRight(s, "\n")` as used by `converter.Result`:
drop every trailing newline character. -/
def trimNewlinesRight (l : List Char) : List Char :=
  (l.reverse.dropWhile (fun ch => ch == '\n')).reverse

/-- Scan for a CR LF pair in a character sequence (used to state the claims
about newline normalization). -/
def crlfScanChars : List Char → Bool
  | [] => false
  | '\r' :: '\n' :: _ => true
  | _ :: rest => crlfScanChars rest

/-- Whether a string contains the two-character sequence CR LF. -/
def hasCRLF (s : String) : Bool := crlfScanChars s.data

/-- Decimal digit character, from Go `fmt.Sprintf("%d", …)` semantics. -/
def decDigit (d : Nat) : Char := Char.ofNat (48 + d % 10)

/-- Fuel-indexed decimal rendering (the fuel argument only drives structural
termination; `natDecimal` always supplies enough fuel). -/
def decDigitsAux : Nat → Nat → List Char
  | 0, _ => []
  | fuel + 1, n =>
      if n < 10 then [decDigit n] else decDigitsAux fuel (n / 10) ++ [decDigit (n % 10)]

/-- Embedding of Go `fmt.Sprintf("%d", n)` for a natural number: its decimal
digit characters. -/
def natDecimal (n : Nat) : List Char := decDigitsAux (n + 1) n

/-- Embedding of the `gomarkdown` AST node shapes the converter dispatches on
(`converter.Visit`), restricted to the closed variant set of the specification:
each container node owns an ordered list of children, each leaf node owns
literal text.  `list` carries the ordered flag (`ListFlags&ListTypeOrdered`)
and the `Start` value; `heading` carries `Level`; `link` carries `Destination`;
`codeBlock` carries `Info` and `Literal`. -/
inductive Node where
  | document (children : List Node)
  | paragraph (children : List Node)
  | heading (level : Nat) (children : List Node)
  | strong (children : List Node)
  | emph (children : List Node)
  | del (children : List Node)
  | link (destination : String) (children : List Node)
  | code (literal : String)
  | codeBlock (info : String) (literal : String)
  | list (ordered : Bool) (start : Nat) (children : List Node)
  | listItem (children : List Node)
  | blockQuote (children : List Node)
  | table (children : List Node)
  | tableHeader (children : List Node)
  | tableBody (children : List Node)
  | tableFooter (children : List Node)
  | tableRow (children : List Node)
  | tableCell (children : List Node)
  | text (literal : String)
deriving Repr

/-- Children of a container node (`node.AsContainer().GetChildren()`); leaves
(`code`, `codeBlock`, `text`) have none. -/
def childrenOf : Node → List Node
  | .document cs => cs
  | .paragraph cs => cs
  | .heading _ cs => cs
  | .strong cs => cs
  | .emph cs => cs
  | .del cs => cs
  | .link _ cs => cs
  | .list _ _ cs => cs
  | .listItem cs => cs
  | .blockQuote cs => cs
  | .table cs => cs
  | .tableHeader cs => cs
  | .tableBody cs => cs
  | .tableFooter cs => cs
  | .tableRow cs => cs
  | .tableCell cs => cs
  | .code _ => []
  | .codeBlock _ _ => []
  | .text _ => []

mutual

/-- Embedding of `renderNodeText`: flatten a subtree to the raw concatenation
of its leaf literals (containers concatenate their children, leaves contribute
their literal). -/
def renderNodeText : Node → List Char
  | .code lit => lit.data
  | .codeBlock _ lit => lit.data
  | .text lit => lit.data
  | .document cs => renderNodesText cs
  | .paragraph cs => renderNodesText cs
  | .heading _ cs => renderNodesText cs
  | .strong cs => renderNodesText cs
  | .emph cs => renderNodesText cs
  | .del cs => renderNodesText cs
  | .link _ cs => renderNodesText cs
  | .list _ _ cs => renderNodesText cs
  | .listItem cs => renderNodesText cs
  | .blockQuote cs => renderNodesText cs
  | .table cs => renderNodesText cs
  | .tableHeader cs => renderNodesText cs
  | .tableBody cs => renderNodesText cs
  | .tableFooter cs => renderNodesText cs
  | .tableRow cs => renderNodesText cs
  | .tableCell cs => renderNodesText cs

/-- Concatenation of `renderNodeText` over a child list (the
`strings.Builder` accumulation of `renderNodeText`). -/
def renderNodesText : List Node → List Char
  | [] => []
  | n :: ns => renderNodeText n ++ renderNodesText ns

end

/-- Is this node an `ast.TableRow`? (the type assertion in `traverseTableRows`). -/
def isTableRow : Node → Bool
  | .tableRow _ => true
  | _ => false

/-- Is this node an `ast.TableCell`? (the type assertion in `visitTable`). -/
def isTableCell : Node → Bool
  | .tableCell _ => true
  | _ => false

/-- The Go loop in `traverseTableRows` that assigns `header`/`body`/`footer`
keeps the last child of the given kind; embedded as a fold. -/
def pickLast (p : Node → Bool) (cs : List Node) : Option Node :=
  cs.foldl (fun acc n => if p n then some n else acc) none

/-- Is this node an `ast.TableHeader`? -/
def isTableHeader : Node → Bool
  | .tableHeader _ => true
  | _ => false

/-- Is this node an `ast.TableBody`? -/
def isTableBody : Node → Bool
  | .tableBody _ => true
  | _ => false

/-- Is this node an `ast.TableFooter`? -/
def isTableFooter : Node → Bool
  | .tableFooter _ => true
  | _ => false

/-- Embedding of `traverseTableRows`: the header, body and footer containers of
a table (each the last of its kind among the children, in header-body-footer
order), flattened to their `TableRow` children. -/
def tableRows (cs : List Node) : List Node :=
  let containers :=
    (pickLast isTableHeader cs).toList ++ (pickLast isTableBody cs).toList ++
      (pickLast isTableFooter cs).toList
  containers.flatMap (fun container => (childrenOf container).filter isTableRow)

/-- Cell texts of one table row (`visitTable`: the row's `TableCell` children
rendered with `renderTableCellText`). -/
def rowCellTexts (row : Node) : List (List Char) :=
  ((childrenOf row).filter isTableCell).map renderNodeText

/-- Embedding of the `tableContent` accumulation in `visitTable`. -/
def tableContent (cs : List Node) : List (List (List Char)) :=
  (tableRows cs).map rowCellTexts

/-- Pointwise maximum of two column-width lists (ragged rows keep the longer
list's tail). -/
def mergeWidths : List Nat → List Nat → List Nat
  | [], ws => ws
  | vs, [] => vs
  | v :: vs, w :: ws => Nat.max v w :: mergeWidths vs ws

/-- Per-column display width: the maximum cell length in each column. -/
def rowWidths : List (List (List Char)) → List Nat
  | [] => []
  | r :: rs => mergeWidths (r.map List.length) (rowWidths rs)

/-- Pad a cell with spaces to the column width. -/
def padCell (w : Nat) (cell : List Char) : List Char :=
  cell ++ List.replicate (w - cell.length) ' '

/-- Pad every cell of a row to its column's width, supplying empty cells for
missing columns. -/
def paddedCells : List Nat → List (List Char) → List (List Char)
  | [], _ => []
  | w :: ws, [] => padCell w [] :: paddedCells ws []
  | w :: ws, cell :: cells => padCell w cell :: paddedCells ws cells

/-- Join padded cells with the column separator. -/
def joinCells : List (List Char) → List Char
  | [] => []
  | [cell] => cell
  | cell :: cells => cell ++ " | ".data ++ joinCells cells

/-- One rendered table line: padded cells joined with `" | "` between `"| "`
and `" |"` borders. -/
def tableLine (ws : List Nat) (r : List (List Char)) : List Char :=
  "| ".data ++ joinCells (paddedCells ws r) ++ " |".data

/-- The horizontal separator line beneath the header: dash runs sized to each
column's width. -/
def sepLine (ws : List Nat) : List Char :=
  tableLine ws (ws.map (fun w => List.replicate w '-'))

/-- Body lines of the rendered table, one per row, each newline-terminated. -/
def bodyLines (ws : List Nat) : List (List (List Char)) → List Char
  | [] => []
  | r :: rs => tableLine ws r ++ "\n".data ++ bodyLines ws rs

/-- Modelled from the spec: the external fixed-width table layouter
(`mdtable.Generate`, not part of this repository).  Per the specification it
computes per-column display widths as the maximum cell width in the column,
pads every cell to its column's width (missing cells as empty), joins columns
with `" | "` and row borders with `"|"`, and places a single dash separator
row beneath the header. -/
def mdtableGenerate (rows : List (List (List Char))) : List Char :=
  match rows with
  | [] => []
  | header :: body =>
      let ws := rowWidths (header :: body)
      tableLine ws header ++ "\n".data ++ sepLine ws ++ "\n".data ++ bodyLines ws body

/-- Embedding of the `converter` struct: the output buffer, the collected
entities, and the running rune and UTF-16 code-unit counts. -/
structure Conv where
  out : List Char
  entities : List MessageEntity
  curRunes : Nat
  curUnits : Nat
deriving Repr

/-- The zero-value `converter` that `Parse` starts from (`c := &converter{}`). -/
def initConv : Conv := { out := [], entities := [], curRunes := 0, curUnits := 0 }

/-- Embedding of `converter.writeText` on a character sequence: normalize CR LF
to LF, append to the buffer, and advance the rune and UTF-16 counters by the
size of the normalized text. -/
def writeTextChars (c : Conv) (l : List Char) : Conv :=
  let n := normalizeChars l
  { c with
      out := c.out ++ n
      curRunes := c.curRunes + n.length
      curUnits := c.curUnits + utf16LenChars n }

/-- Embedding of `converter.writeText` (and `converter.writeBytes`, which just
converts and delegates). -/
def writeText (c : Conv) (s : String) : Conv := writeTextChars c s.data

/-- Embedding of `converter.ensureNewline`: do nothing on an empty buffer,
otherwise write one newline unless the buffer already ends with one.  (The Go
code checks the last byte; for valid UTF-8 the last byte is a newline exactly
when the last character is.) -/
def ensureNewline (c : Conv) : Conv :=
  match c.out.getLast? with
  | none => c
  | some ch => if ch = '\n' then c else writeText c "\n"

/-- Embedding of the closure returned by `converter.begin`: when a scope ends,
each prototype entity is appended with `Offset` set to the captured start and
`Length` set to the current UTF-16 count minus the start. -/
def endScope (start : Nat) (protos : List MessageEntity) (c : Conv) : Conv :=
  { c with
      entities :=
        c.entities ++ protos.map (fun e => { e with offset := start, length := c.curUnits - start }) }

mutual

/-- Embedding of `converter.Visit` and the per-kind visitors it dispatches to.
`hasPrev` carries whether the node has a previous sibling in its parent's
child list: the Go code recovers this through the node's parent pointer
(`visitParagraph` scans `node.Parent.GetChildren()` for the node itself, by
pointer identity, which is exactly its position in the loop that visited it);
only the paragraph case reads it. -/
def visit (c : Conv) (hasPrev : Bool) : Node → Conv
  | .paragraph cs =>
      let c0 := if hasPrev then ensureNewline c else c
      visitChildren c0 0 cs
  | .strong cs =>
      let start := c.curUnits
      endScope start [{ type := .bold, offset := 0, length := 0 }] (visitChildren c 0 cs)
  | .emph cs =>
      let start := c.curUnits
      endScope start [{ type := .italic, offset := 0, length := 0 }] (visitChildren c 0 cs)
  | .del cs =>
      let start := c.curUnits
      endScope start [{ type := .strikethrough, offset := 0, length := 0 }] (visitChildren c 0 cs)
  | .link dest cs =>
      let start := c.curUnits
      endScope start [{ type := .textLink, offset := 0, length := 0, url := dest }]
        (visitChildren c 0 cs)
  | .heading level cs =>
      let protos :=
        [({ type := .underline, offset := 0, length := 0 } : MessageEntity)] ++
          (if level = 1 then [({ type := .bold, offset := 0, length := 0 } : MessageEntity)] else [])
      let c1 := writeText c "\n\n"
      let start := c1.curUnits
      let c2 := visitChildren c1 0 cs
      writeText (endScope start protos c2) "\n"
  | .code lit =>
      let start := c.curUnits
      endScope start [{ type := .code, offset := 0, length := 0 }] (writeText c lit)
  | .codeBlock info lit =>
      let c1 := ensureNewline c
      let start := c1.curUnits
      endScope start [{ type := .codeBlock, offset := 0, length := 0, language := info }]
        (writeText c1 lit)
  | .list ordered start cs =>
      let c1 := ensureNewline c
      if ordered then
        visitOrderedItems c1 (if start = 0 then 1 else start) 0 cs
      else
        visitBulletItems c1 0 cs
  | .blockQuote cs =>
      let start := c.curUnits
      endScope start [{ type := .blockquote, offset := 0, length := 0 }] (visitChildren c 0 cs)
  | .table cs =>
      let tableText := mdtableGenerate (tableContent cs)
      let c1 := ensureNewline c
      let start := c1.curUnits
      endScope start [{ type := .codeBlock, offset := 0, length := 0 }]
        (writeTextChars c1 tableText)
  | .document cs => visitChildren c 0 cs
  | .listItem cs => visitChildren c 0 cs
  | .tableHeader cs => visitChildren c 0 cs
  | .tableBody cs => visitChildren c 0 cs
  | .tableFooter cs => visitChildren c 0 cs
  | .tableRow cs => visitChildren c 0 cs
  | .tableCell cs => visitChildren c 0 cs
  | .text lit => writeText c lit

/-- Embedding of `visitGeneric`'s loop over a container's children: the child
at position `i` has a previous sibling exactly when `i ≠ 0`. -/
def visitChildren (c : Conv) (i : Nat) : List Node → Conv
  | [] => c
  | n :: ns => visitChildren (visit c (i != 0) n) (i + 1) ns

/-- Embedding of `visitBulletList`: each item is written as the literal bullet
`"• "`, the item's content, and a newline. -/
def visitBulletItems (c : Conv) (i : Nat) : List Node → Conv
  | [] => c
  | n :: ns =>
      let c1 := writeText c "• "
      let c2 := visit c1 (i != 0) n
      let c3 := writeText c2 "\n"
      visitBulletItems c3 (i + 1) ns

/-- Embedding of `visitOrderedList`'s loop: the item at position `i` is written
as `fmt.Sprintf("%d. ", i+start)`, the item's content, and a newline. -/
def visitOrderedItems (c : Conv) (start i : Nat) : List Node → Conv
  | [] => c
  | n :: ns =>
      let c1 := writeTextChars c (natDecimal (i + start) ++ ". ".data)
      let c2 := visit c1 (i != 0) n
      let c3 := writeText c2 "\n"
      visitOrderedItems c3 start (i + 1) ns

end

/-- The conversion `Parse` performs after the external parser has produced the
document tree: visit the root with a fresh converter. -/
def convert (doc : Node) : Conv := visit initConv false doc

/-- Embedding of `converter.Result`: trim trailing newlines from the buffer and
return it with the collected entities. -/
def Result (c : Conv) : String × List MessageEntity :=
  (String.mk (trimNewlinesRight c.out), c.entities)

/-- The tree-to-output half of `Parse`: everything `Parse` does after
`md.Parse` has returned the document tree. -/
def parseTree (doc : Node) : String × List MessageEntity := Result (convert doc)

/-- Embedding of `Parse` against an external tree parser that may fail: the Go
body runs `doc := md.Parse([]byte(srcText))` and then converts, with no
`recover` anywhere in the package, so a parser failure propagates out of
`Parse` unhandled. -/
def ParseWith {ε : Type} (p : String → Except ε Node) (srcText : String) :
    Except ε (String × List MessageEntity) :=
  match p srcText with
  | .error e => .error e
  | .ok doc => .ok (parseTree doc)

/-- Embedding of `Parse` against a total external tree parser (the actual
`gomarkdown` parser never fails): parse, then convert. -/
def ParseT (p : String → Node) (srcText : String) : String × List MessageEntity :=
  parseTree (p srcText)

/-- Whitespace-only input: every character is a space, tab, newline or
carriage return. -/
def isBlank (s : String) : Bool :=
  s.data.all (fun ch => ch == ' ' || ch == '\t' || ch == '\n' || ch == '\r')

/-- End position of an entity's span in UTF-16 code units. -/
def entityEnd (e : MessageEntity) : Nat := e.offset + e.length

/-- Invariant maintained by every converter step: the running UTF-16 counter
recounts the buffer, every recorded entity ends within the text written so
far, and entities are recorded in the order their spans were closed (their end
positions are non-decreasing along the list). -/
def StateInv (c : Conv) : Prop :=
  c.curUnits = utf16LenChars c.out ∧
    (∀ e ∈ c.entities, entityEnd e ≤ c.curUnits) ∧
    List.Pairwise (fun a b => entityEnd a ≤ entityEnd b) c.entities

/-- A literal is normalization-clean when a single CR LF replacement pass
leaves no carriage return in it (every CR it contains is immediately followed
by LF). -/
def cleanLit (s : String) : Bool := !(decide ('\r' ∈ normalizeChars s.data))

mutual

/-- All literals in the tree are normalization-clean. -/
def treeClean : Node → Bool
  | .code lit => cleanLit lit
  | .codeBlock _ lit => cleanLit lit
  | .text lit => cleanLit lit
  | .document cs => treeCleanList cs
  | .paragraph cs => treeCleanList cs
  | .heading _ cs => treeCleanList cs
  | .strong cs => treeCleanList cs
  | .emph cs => treeCleanList cs
  | .del cs => treeCleanList cs
  | .link _ cs => treeCleanList cs
  | .list _ _ cs => treeCleanList cs
  | .listItem cs => treeCleanList cs
  | .blockQuote cs => treeCleanList cs
  | .table cs => treeCleanList cs
  | .tableHeader cs => treeCleanList cs
  | .tableBody cs => treeCleanList cs
  | .tableFooter cs => treeCleanList cs
  | .tableRow cs => treeCleanList cs
  | .tableCell cs => treeCleanList cs

/-- All literals in each tree of the list are normalization-clean. -/
def treeCleanList : List Node → Bool
  | [] => true
  | n :: ns => treeClean n && treeCleanList ns

end

/-! ### Definitions used to state the individual claims -/

/-- End-to-end entity ordering property asserted by claim C2, stated from the
spec's words: an annotation whose span strictly contains another's (a parent,
outer node) precedes it, so no entity is listed after one it is strictly
contained in.  (This is the spec's description, to be compared against the
converter; the converter itself appends entities when scopes close.) -/
def specParentFirstOrder (es : List MessageEntity) : Prop :=
  List.Pairwise (fun a b =>
    ¬ (b.offset ≤ a.offset ∧ a.offset + a.length ≤ b.offset + b.length ∧
        (b.offset ≠ a.offset ∨ b.length ≠ a.length))) es

/-- Modelled from the spec: a hypothetical failing external tree parser (the
spec's error-handling section considers the parser throwing on invalid input). -/
def failingTreeParserModel : String → Except Unit Node := fun _ => .error ()

/-- Modelled from the spec: the tree the external CommonMark parser produces
for one plain-text ordered-list item (a list item holding a paragraph of
text). -/
def textItem (t : String) : Node := .listItem [.paragraph [.text t]]

/-- Reference rendering of an ordered list of plain-text items, used to state
the corrected ordered-list claim: item at 0-based position `i` is written as
the decimal index `i + start`, then `". "`, then the normalized item text,
then a newline — with no bullet glyph. -/
def orderedRender (start i : Nat) : List String → List Char
  | [] => []
  | t :: ts =>
      natDecimal (i + start) ++ ". ".data ++ normalizeChars t.data ++ "\n".data ++
        orderedRender start (i + 1) ts

/-- Modelled from the spec: the tree the external CommonMark parser produces
for the input `"\x60\x60\x60\nX\n\x60\x60\x60"` — a single fenced code block whose literal
content, per CommonMark, keeps its terminating newline. -/
def c1Tree : Node := .document [.codeBlock "" "X\n"]

/-- Modelled from the spec: the tree for `"**a *b* c**"` — a paragraph holding
strong (bold) content with emphasized (italic) text nested inside it. -/
def c2Tree : Node := .document [.paragraph [.strong [.text "a ", .emph [.text "b"], .text " c"]]]

/-- Modelled from the spec: the tree for `"Hello\n\n\x60\x60\x60bash\nSource Code\n\x60\x60\x60"`
— a paragraph followed by a fenced code block with info string `bash` whose
literal content keeps its terminating newline. -/
def c5Tree : Node := .document [.paragraph [.text "Hello"], .codeBlock "bash" "Source Code\n"]

/-- Modelled from the spec: the tree for `"Hello\n> Quote"` — a paragraph
followed by a blockquote holding a paragraph. -/
def c6Tree : Node := .document [.paragraph [.text "Hello"], .blockQuote [.paragraph [.text "Quote"]]]

/-- Modelled from the spec: the tree for `"# Hello World!"` — one level-1
heading. -/
def c7Tree : Node := .document [.heading 1 [.text "Hello World!"]]

/-- Modelled from the spec: the tree for `"## Hi"` — one level-2 heading. -/
def c7TreeH2 : Node := .document [.heading 2 [.text "Hi"]]

/-- Modelled from the spec: the tree for `"3. Item"` — an ordered list whose
source numbering starts at 3 (the parser is configured with the ordered-list
start-value extension, so `Start = 3`). -/
def c8Tree : Node := .document [.list true 3 [.listItem [.paragraph [.text "Item"]]]]

/-- Modelled from the spec: the tree for the input `"\x60\x60\x60\nx\r\r\ny\n\x60\x60\x60"` —
a fenced code block whose verbatim literal content is the lines `x\r\r` and
`y` (a strayCR before the CR LF line ending). -/
def c10Tree : Node := .document [.codeBlock "" "x\r\r\ny\n"]

/-- A tree whose code-block literal uses CR LF line endings (every CR
immediately followed by LF), used to witness the no-CRLF theorem. -/
def c10WitnessTree : Node := .document [.codeBlock "" "a\r\nb"]

/-! ### Basic facts about the string primitives -/

theorem utf16LenChars_append (a b : List Char) :
    utf16LenChars (a ++ b) = utf16LenChars a + utf16LenChars b := by
  induction a with
  | nil => simp [utf16LenChars]
  | cons ch rest ih => simp [utf16LenChars, ih]; omega

/-- Normalization only ever keeps characters of the original sequence. -/
theorem mem_of_mem_normalizeChars {a : Char} :
    ∀ {l : List Char}, a ∈ normalizeChars l → a ∈ l := by
  intro l
  induction l using normalizeChars.induct with
  | case1 => simp [normalizeChars]
  | case2 rest ih =>
      intro h
      rcases List.mem_cons.mp h with h | h
      · simp [h]
      · simpa using Or.inr (Or.inr (ih h))
  | case3 ch rest hne ih =>
      intro h
      rw [normalizeChars] at h
      · rcases List.mem_cons.mp h with h | h
        · simp [h]
        · exact List.mem_cons.mpr (Or.inr (ih h))
      · exact hne

/-- A sequence without carriage returns is untouched by normalization. -/
theorem normalizeChars_of_no_cr : ∀ {l : List Char}, '\r' ∉ l → normalizeChars l = l := by
  intro l
  induction l using normalizeChars.induct with
  | case1 => intro _; rfl
  | case2 rest ih => intro h; simp at h
  | case3 ch rest hne ih =>
      intro h
      rw [normalizeChars]
      · rw [ih (fun hm => h (List.mem_cons.mpr (Or.inr hm)))]
      · exact hne

/-- When the left part normalizes without a leftover carriage return, a single
left-to-right normalization pass distributes over concatenation. -/
theorem normalizeChars_append :
    ∀ {a : List Char}, '\r' ∉ normalizeChars a →
      ∀ b, normalizeChars (a ++ b) = normalizeChars a ++ normalizeChars b := by
  intro a
  induction a using normalizeChars.induct with
  | case1 => intro _ b; rfl
  | case2 rest ih =>
      intro h b
      have h' : '\r' ∉ normalizeChars rest := by
        intro hm
        exact h (by simp [normalizeChars, hm])
      simp only [List.cons_append, normalizeChars, List.append_eq]
      rw [ih h' b]
  | case3 ch rest hne ih =>
      intro h b
      have hch : ch ≠ '\r' := by
        intro hc
        apply h
        rw [normalizeChars]
        · exact List.mem_cons.mpr (Or.inl hc.symm)
        · exact hne
      have h' : '\r' ∉ normalizeChars rest := by
        intro hm
        apply h
        rw [normalizeChars]
        · exact List.mem_cons.mpr (Or.inr hm)
        · exact hne
      have hstep : normalizeChars (ch :: rest) = ch :: normalizeChars rest := by
        rw [normalizeChars]
        exact hne
      have hstep2 : normalizeChars (ch :: (rest ++ b)) = ch :: normalizeChars (rest ++ b) := by
        rw [normalizeChars]
        intro rest1 hc
        exact absurd hc hch
      simp only [List.cons_append, hstep, hstep2, ih h' b]

/-! ### The converter's running state invariant -/

theorem StateInv_initConv : StateInv initConv :=
  ⟨rfl, by intro e he; simp [initConv] at he, by simp [initConv]⟩

theorem writeTextChars_le (c : Conv) (l : List Char) :
    c.curUnits ≤ (writeTextChars c l).curUnits := by
  simp [writeTextChars]

theorem writeTextChars_entities (c : Conv) (l : List Char) :
    (writeTextChars c l).entities = c.entities := rfl

theorem StateInv_writeTextChars (c : Conv) (l : List Char) (h : StateInv c) :
    StateInv (writeTextChars c l) := by
  obtain ⟨h1, h2, h3⟩ := h
  refine ⟨?_, ?_, h3⟩
  · simp [writeTextChars, utf16LenChars_append, h1]
  · intro e he
    exact le_trans (h2 e he) (writeTextChars_le c l)

theorem ensureNewline_le (c : Conv) : c.curUnits ≤ (ensureNewline c).curUnits := by
  unfold ensureNewline
  cases c.out.getLast? with
  | none => exact Nat.le_refl _
  | some ch =>
      by_cases hc : ch = '\n'
      · simp [hc]
      · simp [hc, writeText]
        exact writeTextChars_le c _

theorem ensureNewline_entities (c : Conv) : (ensureNewline c).entities = c.entities := by
  unfold ensureNewline
  cases c.out.getLast? with
  | none => rfl
  | some ch =>
      by_cases hc : ch = '\n'
      · simp [hc]
      · simp [hc, writeText, writeTextChars_entities]

theorem StateInv_ensureNewline (c : Conv) (h : StateInv c) : StateInv (ensureNewline c) := by
  unfold ensureNewline
  cases c.out.getLast? with
  | none => exact h
  | some ch =>
      by_cases hc : ch = '\n'
      · simpa [hc] using h
      · simpa [hc] using StateInv_writeTextChars c _ h

theorem list_pairwise_of_forall {α : Type} {R : α → α → Prop} (h : ∀ a b, R a b) :
    ∀ l : List α, List.Pairwise R l
  | [] => List.Pairwise.nil
  | a :: l => List.Pairwise.cons (fun b _ => h a b) (list_pairwise_of_forall h l)

theorem endScope_curUnits (start : Nat) (ps : List MessageEntity) (c : Conv) :
    (endScope start ps c).curUnits = c.curUnits := rfl

theorem endScope_out (start : Nat) (ps : List MessageEntity) (c : Conv) :
    (endScope start ps c).out = c.out := rfl

theorem StateInv_endScope (start : Nat) (ps : List MessageEntity) (c : Conv)
    (h : StateInv c) (hs : start ≤ c.curUnits) : StateInv (endScope start ps c) := by
  obtain ⟨h1, h2, h3⟩ := h
  refine ⟨h1, ?_, ?_⟩
  · intro e he
    simp only [endScope] at he
    rcases List.mem_append.mp he with he | he
    · exact h2 e he
    · obtain ⟨p, _, hpe⟩ := List.mem_map.mp he
      rw [endScope_curUnits]
      subst hpe
      simp [entityEnd]
      omega
  · simp only [endScope]
    rw [List.pairwise_append]
    refine ⟨h3, ?_, ?_⟩
    · refine List.pairwise_map.mpr (list_pairwise_of_forall ?_ ps)
      intro a b
      simp [entityEnd]
    · intro a ha b hb
      obtain ⟨p, _, hpb⟩ := List.mem_map.mp hb
      subst hpb
      have : entityEnd a ≤ c.curUnits := h2 a ha
      simp [entityEnd] at this ⊢
      omega

mutual

theorem visit_inv (c : Conv) (hp : Bool) (n : Node) (h : StateInv c) :
    StateInv (visit c hp n) ∧ c.curUnits ≤ (visit c hp n).curUnits := by
  cases n with
  | paragraph cs =>
      cases hp with
      | false =>
          have hc := visitChildren_inv c 0 cs h
          exact ⟨by simpa [visit] using hc.1, by simpa [visit] using hc.2⟩
      | true =>
          have hc := visitChildren_inv (ensureNewline c) 0 cs (StateInv_ensureNewline c h)
          exact ⟨by simpa [visit] using hc.1,
            by simpa [visit] using le_trans (ensureNewline_le c) hc.2⟩
  | strong cs =>
      have hc := visitChildren_inv c 0 cs h
      refine ⟨?_, ?_⟩
      · simp only [visit]
        exact StateInv_endScope _ _ _ hc.1 hc.2
      · simp only [visit, endScope_curUnits]
        exact hc.2
  | emph cs =>
      have hc := visitChildren_inv c 0 cs h
      refine ⟨?_, ?_⟩
      · simp only [visit]
        exact StateInv_endScope _ _ _ hc.1 hc.2
      · simp only [visit, endScope_curUnits]
        exact hc.2
  | del cs =>
      have hc := visitChildren_inv c 0 cs h
      refine ⟨?_, ?_⟩
      · simp only [visit]
        exact StateInv_endScope _ _ _ hc.1 hc.2
      · simp only [visit, endScope_curUnits]
        exact hc.2
  | link dest cs =>
      have hc := visitChildren_inv c 0 cs h
      refine ⟨?_, ?_⟩
      · simp only [visit]
        exact StateInv_endScope _ _ _ hc.1 hc.2
      · simp only [visit, endScope_curUnits]
        exact hc.2
  | blockQuote cs =>
      have hc := visitChildren_inv c 0 cs h
      refine ⟨?_, ?_⟩
      · simp only [visit]
        exact StateInv_endScope _ _ _ hc.1 hc.2
      · simp only [visit, endScope_curUnits]
        exact hc.2
  | heading level cs =>
      have hc := visitChildren_inv (writeText c "\n\n") 0 cs
        (StateInv_writeTextChars c ("\n\n".data) h)
      refine ⟨?_, ?_⟩
      · simp only [visit]
        exact StateInv_writeTextChars _ _ (StateInv_endScope _ _ _ hc.1 hc.2)
      · simp only [visit]
        refine le_trans ?_ (writeTextChars_le _ _)
        rw [endScope_curUnits]
        exact le_trans (writeTextChars_le c _) hc.2
  | code lit =>
      refine ⟨?_, ?_⟩
      · simp only [visit]
        exact StateInv_endScope _ _ _ (StateInv_writeTextChars c lit.data h)
          (writeTextChars_le c _)
      · simp only [visit, endScope_curUnits]
        exact writeTextChars_le c _
  | codeBlock info lit =>
      refine ⟨?_, ?_⟩
      · simp only [visit]
        exact StateInv_endScope _ _ _
          (StateInv_writeTextChars (ensureNewline c) lit.data (StateInv_ensureNewline c h))
          (writeTextChars_le _ _)
      · simp only [visit, endScope_curUnits]
        exact le_trans (ensureNewline_le c) (writeTextChars_le _ _)
  | list ordered start cs =>
      cases ordered with
      | true =>
          have hi := visitOrderedItems_inv (ensureNewline c) (if start = 0 then 1 else start) 0 cs
            (StateInv_ensureNewline c h)
          exact ⟨by simpa [visit] using hi.1,
            by simpa [visit] using le_trans (ensureNewline_le c) hi.2⟩
      | false =>
          have hi := visitBulletItems_inv (ensureNewline c) 0 cs (StateInv_ensureNewline c h)
          exact ⟨by simpa [visit] using hi.1,
            by simpa [visit] using le_trans (ensureNewline_le c) hi.2⟩
  | table cs =>
      refine ⟨?_, ?_⟩
      · simp only [visit]
        exact StateInv_endScope _ _ _
          (StateInv_writeTextChars (ensureNewline c) (mdtableGenerate (tableContent cs))
            (StateInv_ensureNewline c h))
          (writeTextChars_le _ _)
      · simp only [visit, endScope_curUnits]
        exact le_trans (ensureNewline_le c) (writeTextChars_le _ _)
  | document cs =>
      have hc := visitChildren_inv c 0 cs h
      exact ⟨by simpa only [visit] using hc.1, by simpa only [visit] using hc.2⟩
  | listItem cs =>
      have hc := visitChildren_inv c 0 cs h
      exact ⟨by simpa only [visit] using hc.1, by simpa only [visit] using hc.2⟩
  | tableHeader cs =>
      have hc := visitChildren_inv c 0 cs h
      exact ⟨by simpa only [visit] using hc.1, by simpa only [visit] using hc.2⟩
  | tableBody cs =>
      have hc := visitChildren_inv c 0 cs h
      exact ⟨by simpa only [visit] using hc.1, by simpa only [visit] using hc.2⟩
  | tableFooter cs =>
      have hc := visitChildren_inv c 0 cs h
      exact ⟨by simpa only [visit] using hc.1, by simpa only [visit] using hc.2⟩
  | tableRow cs =>
      have hc := visitChildren_inv c 0 cs h
      exact ⟨by simpa only [visit] using hc.1, by simpa only [visit] using hc.2⟩
  | tableCell cs =>
      have hc := visitChildren_inv c 0 cs h
      exact ⟨by simpa only [visit] using hc.1, by simpa only [visit] using hc.2⟩
  | text lit =>
      exact ⟨by simpa only [visit] using StateInv_writeTextChars c lit.data h,
        by simpa only [visit] using writeTextChars_le c lit.data⟩

theorem visitChildren_inv (c : Conv) (i : Nat) (ns : List Node) (h : StateInv c) :
    StateInv (visitChildren c i ns) ∧ c.curUnits ≤ (visitChildren c i ns).curUnits := by
  cases ns with
  | nil => exact ⟨h, Nat.le_refl _⟩
  | cons n ns =>
      have h1 := visit_inv c (i != 0) n h
      have h2 := visitChildren_inv (visit c (i != 0) n) (i + 1) ns h1.1
      exact ⟨by simpa only [visitChildren] using h2.1,
        by simpa only [visitChildren] using le_trans h1.2 h2.2⟩

theorem visitBulletItems_inv (c : Conv) (i : Nat) (ns : List Node) (h : StateInv c) :
    StateInv (visitBulletItems c i ns) ∧ c.curUnits ≤ (visitBulletItems c i ns).curUnits := by
  cases ns with
  | nil => exact ⟨h, Nat.le_refl _⟩
  | cons n ns =>
      have h2 := visit_inv (writeText c "• ") (i != 0) n
        (StateInv_writeTextChars c ("• ".data) h)
      have h4 := visitBulletItems_inv (writeText (visit (writeText c "• ") (i != 0) n) "\n")
        (i + 1) ns (StateInv_writeTextChars _ ("\n".data) h2.1)
      refine ⟨by simpa only [visitBulletItems] using h4.1, ?_⟩
      simp only [visitBulletItems]
      exact le_trans (writeTextChars_le c _)
        (le_trans h2.2 (le_trans (writeTextChars_le _ _) h4.2))

theorem visitOrderedItems_inv (c : Conv) (start i : Nat) (ns : List Node) (h : StateInv c) :
    StateInv (visitOrderedItems c start i ns) ∧
      c.curUnits ≤ (visitOrderedItems c start i ns).curUnits := by
  cases ns with
  | nil => exact ⟨h, Nat.le_refl _⟩
  | cons n ns =>
      have h2 := visit_inv (writeTextChars c (natDecimal (i + start) ++ ". ".data)) (i != 0) n
        (StateInv_writeTextChars c (natDecimal (i + start) ++ ". ".data) h)
      have h4 := visitOrderedItems_inv
        (writeText (visit (writeTextChars c (natDecimal (i + start) ++ ". ".data)) (i != 0) n) "\n")
        start (i + 1) ns (StateInv_writeTextChars _ ("\n".data) h2.1)
      refine ⟨by simpa only [visitOrderedItems] using h4.1, ?_⟩
      simp only [visitOrderedItems]
      exact le_trans (writeTextChars_le c _)
        (le_trans h2.2 (le_trans (writeTextChars_le _ _) h4.2))

end

/-- The converter's final state satisfies the running invariant for every tree. -/
theorem convert_inv (doc : Node) : StateInv (convert doc) :=
  (visit_inv initConv false doc StateInv_initConv).1

/-! ### Carriage returns and newline normalization -/

theorem cleanLit_iff (s : String) : cleanLit s = true ↔ '\r' ∉ normalizeChars s.data := by
  simp [cleanLit]

theorem no_cr_normalize {l : List Char} (h : '\r' ∉ l) : '\r' ∉ normalizeChars l :=
  fun hm => h (mem_of_mem_normalizeChars hm)

theorem clean_append {a b : List Char} (ha : '\r' ∉ normalizeChars a)
    (hb : '\r' ∉ normalizeChars b) : '\r' ∉ normalizeChars (a ++ b) := by
  rw [normalizeChars_append ha b]
  intro hm
  rcases List.mem_append.mp hm with hm | hm
  · exact ha hm
  · exact hb hm

theorem decDigit_ne_cr (d : Nat) : decDigit d ≠ '\r' := by
  unfold decDigit
  have h : d % 10 < 10 := Nat.mod_lt _ (by norm_num)
  revert h
  generalize d % 10 = m
  intro h
  interval_cases m <;> decide

theorem no_cr_decDigitsAux : ∀ (fuel n : Nat), '\r' ∉ decDigitsAux fuel n := by
  intro fuel
  induction fuel with
  | zero => intro n; simp [decDigitsAux]
  | succ fuel ih =>
      intro n
      rw [decDigitsAux]
      by_cases hn : n < 10
      · simp only [if_pos hn]
        intro hm
        rcases List.mem_singleton.mp hm with h
        exact decDigit_ne_cr n h.symm
      · simp only [if_neg hn]
        intro hm
        rcases List.mem_append.mp hm with hm | hm
        · exact ih (n / 10) hm
        · rcases List.mem_singleton.mp hm with h
          exact decDigit_ne_cr (n % 10) h.symm

theorem no_cr_natDecimal (n : Nat) : '\r' ∉ natDecimal n := no_cr_decDigitsAux (n + 1) n

mutual

theorem renderNodeText_clean (n : Node) (h : treeClean n = true) :
    '\r' ∉ normalizeChars (renderNodeText n) := by
  cases n with
  | code lit => exact (cleanLit_iff lit).mp (by simpa [treeClean] using h)
  | codeBlock info lit => exact (cleanLit_iff lit).mp (by simpa [treeClean] using h)
  | text lit => exact (cleanLit_iff lit).mp (by simpa [treeClean] using h)
  | document cs => exact renderNodesText_clean cs (by simpa [treeClean] using h)
  | paragraph cs => exact renderNodesText_clean cs (by simpa [treeClean] using h)
  | heading level cs => exact renderNodesText_clean cs (by simpa [treeClean] using h)
  | strong cs => exact renderNodesText_clean cs (by simpa [treeClean] using h)
  | emph cs => exact renderNodesText_clean cs (by simpa [treeClean] using h)
  | del cs => exact renderNodesText_clean cs (by simpa [treeClean] using h)
  | link dest cs => exact renderNodesText_clean cs (by simpa [treeClean] using h)
  | list ordered start cs => exact renderNodesText_clean cs (by simpa [treeClean] using h)
  | listItem cs => exact renderNodesText_clean cs (by simpa [treeClean] using h)
  | blockQuote cs => exact renderNodesText_clean cs (by simpa [treeClean] using h)
  | table cs => exact renderNodesText_clean cs (by simpa [treeClean] using h)
  | tableHeader cs => exact renderNodesText_clean cs (by simpa [treeClean] using h)
  | tableBody cs => exact renderNodesText_clean cs (by simpa [treeClean] using h)
  | tableFooter cs => exact renderNodesText_clean cs (by simpa [treeClean] using h)
  | tableRow cs => exact renderNodesText_clean cs (by simpa [treeClean] using h)
  | tableCell cs => exact renderNodesText_clean cs (by simpa [treeClean] using h)

theorem renderNodesText_clean (ns : List Node) (h : treeCleanList ns = true) :
    '\r' ∉ normalizeChars (renderNodesText ns) := by
  cases ns with
  | nil => simp [renderNodesText, normalizeChars]
  | cons n ns =>
      have h1 : treeClean n = true := by
        have := h
        simp [treeCleanList] at this
        exact this.1
      have h2 : treeCleanList ns = true := by
        have := h
        simp [treeCleanList] at this
        exact this.2
      simpa [renderNodesText] using
        clean_append (renderNodeText_clean n h1) (renderNodesText_clean ns h2)

end

theorem replicate_no_cr {n : Nat} {ch : Char} (h : ch ≠ '\r') :
    '\r' ∉ normalizeChars (List.replicate n ch) := by
  apply no_cr_normalize
  intro hm
  exact h ((List.eq_of_mem_replicate hm).symm)

theorem padCell_clean {w : Nat} {cell : List Char} (h : '\r' ∉ normalizeChars cell) :
    '\r' ∉ normalizeChars (padCell w cell) :=
  clean_append h (replicate_no_cr (by decide))

theorem paddedCells_clean :
    ∀ (ws : List Nat) (cells : List (List Char)),
      (∀ cl ∈ cells, '\r' ∉ normalizeChars cl) →
      ∀ cl ∈ paddedCells ws cells, '\r' ∉ normalizeChars cl := by
  intro ws
  induction ws with
  | nil => intro cells _ cl hm; simp [paddedCells] at hm
  | cons w ws ih =>
      intro cells hc cl hm
      cases cells with
      | nil =>
          simp only [paddedCells] at hm
          rcases List.mem_cons.mp hm with hm | hm
          · subst hm
            have hnil : '\r' ∉ normalizeChars ([] : List Char) := by decide
            exact padCell_clean hnil
          · exact ih [] (by intro x hx; simp at hx) cl hm
      | cons c0 cells =>
          simp only [paddedCells] at hm
          rcases List.mem_cons.mp hm with hm | hm
          · subst hm
            exact padCell_clean (hc c0 (List.mem_cons_self _ _))
          · exact ih cells (fun x hx => hc x (List.mem_cons.mpr (Or.inr hx))) cl hm

theorem joinCells_clean :
    ∀ cells : List (List Char), (∀ cl ∈ cells, '\r' ∉ normalizeChars cl) →
      '\r' ∉ normalizeChars (joinCells cells) := by
  intro cells
  induction cells with
  | nil => intro _; simp [joinCells, normalizeChars]
  | cons cl cells ih =>
      intro hc
      cases cells with
      | nil => simpa [joinCells] using hc cl (List.mem_cons_self _ _)
      | cons c1 cells =>
          have h1 := hc cl (List.mem_cons_self _ _)
          have h2 := ih (fun x hx => hc x (List.mem_cons.mpr (Or.inr hx)))
          have hsep : '\r' ∉ normalizeChars (" | ".data) := by decide
          show '\r' ∉ normalizeChars (cl ++ " | ".data ++ joinCells (c1 :: cells))
          exact clean_append (clean_append h1 hsep) h2

theorem tableLine_clean {ws : List Nat} {r : List (List Char)}
    (h : ∀ cl ∈ r, '\r' ∉ normalizeChars cl) :
    '\r' ∉ normalizeChars (tableLine ws r) := by
  have hl : '\r' ∉ normalizeChars ("| ".data) := by decide
  have hr : '\r' ∉ normalizeChars (" |".data) := by decide
  exact clean_append (clean_append hl (joinCells_clean _ (paddedCells_clean ws r h))) hr

theorem sepLine_clean (ws : List Nat) : '\r' ∉ normalizeChars (sepLine ws) := by
  unfold sepLine
  apply tableLine_clean
  intro cl hm
  obtain ⟨w, _, hw⟩ := List.mem_map.mp hm
  subst hw
  exact replicate_no_cr (by decide)

theorem bodyLines_clean :
    ∀ (ws : List Nat) (rows : List (List (List Char))),
      (∀ r ∈ rows, ∀ cl ∈ r, '\r' ∉ normalizeChars cl) →
      '\r' ∉ normalizeChars (bodyLines ws rows) := by
  intro ws rows
  induction rows with
  | nil => intro _; simp [bodyLines, normalizeChars]
  | cons r rows ih =>
      intro hc
      have h1 := @tableLine_clean ws r (hc r (List.mem_cons_self _ _))
      have h2 := ih (fun x hx => hc x (List.mem_cons.mpr (Or.inr hx)))
      have hnl : '\r' ∉ normalizeChars ("\n".data) := by decide
      show '\r' ∉ normalizeChars (tableLine ws r ++ "\n".data ++ bodyLines ws rows)
      exact clean_append (clean_append h1 hnl) h2

theorem mdtableGenerate_clean {rows : List (List (List Char))}
    (h : ∀ r ∈ rows, ∀ cl ∈ r, '\r' ∉ normalizeChars cl) :
    '\r' ∉ normalizeChars (mdtableGenerate rows) := by
  cases rows with
  | nil => simp [mdtableGenerate, normalizeChars]
  | cons header body =>
      have hh := @tableLine_clean (rowWidths (header :: body)) header
        (h header (List.mem_cons_self _ _))
      have hb := bodyLines_clean (rowWidths (header :: body)) body
        (fun r hr => h r (List.mem_cons.mpr (Or.inr hr)))
      have hnl : '\r' ∉ normalizeChars ("\n".data) := by decide
      show '\r' ∉ normalizeChars
        (tableLine (rowWidths (header :: body)) header ++ "\n".data ++
          sepLine (rowWidths (header :: body)) ++ "\n".data ++
          bodyLines (rowWidths (header :: body)) body)
      exact clean_append (clean_append (clean_append (clean_append hh hnl)
        (sepLine_clean _)) hnl) hb

theorem treeCleanList_mem : ∀ {ns : List Node} {n : Node},
    treeCleanList ns = true → n ∈ ns → treeClean n = true := by
  intro ns
  induction ns with
  | nil => intro n _ hm; simp at hm
  | cons x ns ih =>
      intro n h hm
      have hx : treeClean x = true ∧ treeCleanList ns = true := by
        simpa [treeCleanList, Bool.and_eq_true] using h
      rcases List.mem_cons.mp hm with hm | hm
      · subst hm; exact hx.1
      · exact ih hx.2 hm

theorem treeClean_childrenOf {n : Node} (h : treeClean n = true) :
    treeCleanList (childrenOf n) = true := by
  cases n <;> simpa [treeClean, childrenOf, treeCleanList] using h

theorem pickLast_clean (p : Node → Bool) :
    ∀ (cs : List Node) (acc : Option Node),
      (∀ x, acc = some x → treeClean x = true) → treeCleanList cs = true →
      ∀ x, cs.foldl (fun a m => if p m then some m else a) acc = some x →
        treeClean x = true := by
  intro cs
  induction cs with
  | nil => intro acc hacc _ x hx; exact hacc x hx
  | cons n ns ih =>
      intro acc hacc hcl x hx
      have hn : treeClean n = true ∧ treeCleanList ns = true := by
        simpa [treeCleanList, Bool.and_eq_true] using hcl
      simp only [List.foldl] at hx
      refine ih (if p n then some n else acc) ?_ hn.2 x hx
      intro y hy
      by_cases hpn : p n = true
      · rw [if_pos hpn] at hy
        cases hy
        exact hn.1
      · rw [if_neg hpn] at hy
        exact hacc y hy

theorem tableContent_clean {cs : List Node} (h : treeCleanList cs = true) :
    ∀ r ∈ tableContent cs, ∀ cl ∈ r, '\r' ∉ normalizeChars cl := by
  intro r hr cl hcl
  obtain ⟨row, hrow, hrr⟩ := List.mem_map.mp hr
  subst hrr
  obtain ⟨cellNode, hcell, hct⟩ := List.mem_map.mp hcl
  subst hct
  -- the row comes from one of the (clean) header/body/footer containers
  have hrowClean : treeClean row = true := by
    unfold tableRows at hrow
    obtain ⟨container, hcont, hrow2⟩ := List.mem_flatMap.mp hrow
    have hcontClean : treeClean container = true := by
      rcases List.mem_append.mp hcont with hcont | hcont
      · rcases List.mem_append.mp hcont with hcont | hcont
        · rcases Option.mem_toList.mp hcont with hpick
          exact pickLast_clean isTableHeader cs none (by intro x hx; cases hx) h container hpick
        · rcases Option.mem_toList.mp hcont with hpick
          exact pickLast_clean isTableBody cs none (by intro x hx; cases hx) h container hpick
      · rcases Option.mem_toList.mp hcont with hpick
        exact pickLast_clean isTableFooter cs none (by intro x hx; cases hx) h container hpick
    exact treeCleanList_mem (treeClean_childrenOf hcontClean)
      (List.mem_of_mem_filter hrow2)
  have hcellClean : treeClean cellNode = true :=
    treeCleanList_mem (treeClean_childrenOf hrowClean) (List.mem_of_mem_filter hcell)
  exact renderNodeText_clean cellNode hcellClean

theorem writeTextChars_clean {c : Conv} {l : List Char} (h : '\r' ∉ c.out)
    (hl : '\r' ∉ normalizeChars l) : '\r' ∉ (writeTextChars c l).out := by
  simp only [writeTextChars]
  intro hm
  rcases List.mem_append.mp hm with hm | hm
  · exact h hm
  · exact hl hm

theorem ensureNewline_clean {c : Conv} (h : '\r' ∉ c.out) : '\r' ∉ (ensureNewline c).out := by
  unfold ensureNewline
  cases c.out.getLast? with
  | none => exact h
  | some ch =>
      by_cases hc : ch = '\n'
      · simpa [hc] using h
      · simp only [hc, if_neg]
        exact writeTextChars_clean h (by decide)

mutual

theorem visit_clean (c : Conv) (hp : Bool) (n : Node) (hn : treeClean n = true)
    (h : '\r' ∉ c.out) : '\r' ∉ (visit c hp n).out := by
  cases n with
  | paragraph cs =>
      have hcs : treeCleanList cs = true := by simpa [treeClean] using hn
      cases hp with
      | false => simpa [visit] using visitChildren_clean c 0 cs hcs h
      | true =>
          simpa [visit] using
            visitChildren_clean (ensureNewline c) 0 cs hcs (ensureNewline_clean h)
  | strong cs =>
      have hcs : treeCleanList cs = true := by simpa [treeClean] using hn
      simpa only [visit, endScope_out] using visitChildren_clean c 0 cs hcs h
  | emph cs =>
      have hcs : treeCleanList cs = true := by simpa [treeClean] using hn
      simpa only [visit, endScope_out] using visitChildren_clean c 0 cs hcs h
  | del cs =>
      have hcs : treeCleanList cs = true := by simpa [treeClean] using hn
      simpa only [visit, endScope_out] using visitChildren_clean c 0 cs hcs h
  | link dest cs =>
      have hcs : treeCleanList cs = true := by simpa [treeClean] using hn
      simpa only [visit, endScope_out] using visitChildren_clean c 0 cs hcs h
  | blockQuote cs =>
      have hcs : treeCleanList cs = true := by simpa [treeClean] using hn
      simpa only [visit, endScope_out] using visitChildren_clean c 0 cs hcs h
  | heading level cs =>
      have hcs : treeCleanList cs = true := by simpa [treeClean] using hn
      have h1 : '\r' ∉ (writeText c "\n\n").out := writeTextChars_clean h (by decide)
      have h2 := visitChildren_clean (writeText c "\n\n") 0 cs hcs h1
      simp only [visit]
      exact writeTextChars_clean (by simpa only [endScope_out] using h2) (by decide)
  | code lit =>
      have hl : '\r' ∉ normalizeChars lit.data := (cleanLit_iff lit).mp (by simpa [treeClean] using hn)
      simpa only [visit, endScope_out] using writeTextChars_clean h hl
  | codeBlock info lit =>
      have hl : '\r' ∉ normalizeChars lit.data := (cleanLit_iff lit).mp (by simpa [treeClean] using hn)
      simpa only [visit, endScope_out] using
        writeTextChars_clean (ensureNewline_clean h) hl
  | list ordered start cs =>
      have hcs : treeCleanList cs = true := by simpa [treeClean] using hn
      cases ordered with
      | true =>
          simpa [visit] using visitOrderedItems_clean (ensureNewline c)
            (if start = 0 then 1 else start) 0 cs hcs (ensureNewline_clean h)
      | false =>
          simpa [visit] using
            visitBulletItems_clean (ensureNewline c) 0 cs hcs (ensureNewline_clean h)
  | table cs =>
      have hcs : treeCleanList cs = true := by simpa [treeClean] using hn
      simpa only [visit, endScope_out] using
        writeTextChars_clean (ensureNewline_clean h)
          (mdtableGenerate_clean (tableContent_clean hcs))
  | document cs =>
      have hcs : treeCleanList cs = true := by simpa [treeClean] using hn
      simpa only [visit] using visitChildren_clean c 0 cs hcs h
  | listItem cs =>
      have hcs : treeCleanList cs = true := by simpa [treeClean] using hn
      simpa only [visit] using visitChildren_clean c 0 cs hcs h
  | tableHeader cs =>
      have hcs : treeCleanList cs = true := by simpa [treeClean] using hn
      simpa only [visit] using visitChildren_clean c 0 cs hcs h
  | tableBody cs =>
      have hcs : treeCleanList cs = true := by simpa [treeClean] using hn
      simpa only [visit] using visitChildren_clean c 0 cs hcs h
  | tableFooter cs =>
      have hcs : treeCleanList cs = true := by simpa [treeClean] using hn
      simpa only [visit] using visitChildren_clean c 0 cs hcs h
  | tableRow cs =>
      have hcs : treeCleanList cs = true := by simpa [treeClean] using hn
      simpa only [visit] using visitChildren_clean c 0 cs hcs h
  | tableCell cs =>
      have hcs : treeCleanList cs = true := by simpa [treeClean] using hn
      simpa only [visit] using visitChildren_clean c 0 cs hcs h
  | text lit =>
      have hl : '\r' ∉ normalizeChars lit.data := (cleanLit_iff lit).mp (by simpa [treeClean] using hn)
      simpa only [visit] using writeTextChars_clean h hl

theorem visitChildren_clean (c : Conv) (i : Nat) (ns : List Node)
    (hn : treeCleanList ns = true) (h : '\r' ∉ c.out) :
    '\r' ∉ (visitChildren c i ns).out := by
  cases ns with
  | nil => exact h
  | cons n ns =>
      have hx : treeClean n = true ∧ treeCleanList ns = true := by
        simpa [treeCleanList, Bool.and_eq_true] using hn
      simpa only [visitChildren] using
        visitChildren_clean (visit c (i != 0) n) (i + 1) ns hx.2
          (visit_clean c (i != 0) n hx.1 h)

theorem visitBulletItems_clean (c : Conv) (i : Nat) (ns : List Node)
    (hn : treeCleanList ns = true) (h : '\r' ∉ c.out) :
    '\r' ∉ (visitBulletItems c i ns).out := by
  cases ns with
  | nil => exact h
  | cons n ns =>
      have hx : treeClean n = true ∧ treeCleanList ns = true := by
        simpa [treeCleanList, Bool.and_eq_true] using hn
      have h1 : '\r' ∉ (writeText c "• ").out := writeTextChars_clean h (by decide)
      have h2 := visit_clean (writeText c "• ") (i != 0) n hx.1 h1
      have h3 : '\r' ∉ (writeText (visit (writeText c "• ") (i != 0) n) "\n").out :=
        writeTextChars_clean h2 (by decide)
      simpa only [visitBulletItems] using
        visitBulletItems_clean _ (i + 1) ns hx.2 h3

theorem visitOrderedItems_clean (c : Conv) (start i : Nat) (ns : List Node)
    (hn : treeCleanList ns = true) (h : '\r' ∉ c.out) :
    '\r' ∉ (visitOrderedItems c start i ns).out := by
  cases ns with
  | nil => exact h
  | cons n ns =>
      have hx : treeClean n = true ∧ treeCleanList ns = true := by
        simpa [treeCleanList, Bool.and_eq_true] using hn
      have hd : '\r' ∉ normalizeChars (natDecimal (i + start) ++ ". ".data) := by
        apply no_cr_normalize
        intro hm
        rcases List.mem_append.mp hm with hm | hm
        · exact no_cr_natDecimal _ hm
        · simp at hm
      have h1 : '\r' ∉ (writeTextChars c (natDecimal (i + start) ++ ". ".data)).out :=
        writeTextChars_clean h hd
      have h2 := visit_clean (writeTextChars c (natDecimal (i + start) ++ ". ".data))
        (i != 0) n hx.1 h1
      have h3 : '\r' ∉
          (writeText (visit (writeTextChars c (natDecimal (i + start) ++ ". ".data)) (i != 0) n)
            "\n").out :=
        writeTextChars_clean h2 (by decide)
      simpa only [visitOrderedItems] using
        visitOrderedItems_clean _ start (i + 1) ns hx.2 h3

end

/-- The converter buffer contains no carriage return when all tree literals are
normalization-clean. -/
theorem convert_clean (doc : Node) (h : treeClean doc = true) : '\r' ∉ (convert doc).out :=
  visit_clean initConv false doc h (by simp [initConv])

theorem mem_of_dropWhile_mem {α : Type} {p : α → Bool} {a : α} :
    ∀ {l : List α}, a ∈ List.dropWhile p l → a ∈ l := by
  intro l
  induction l with
  | nil => intro h; simpa using h
  | cons x xs ih =>
      intro h
      simp only [List.dropWhile_cons] at h
      by_cases hp : p x = true
      · rw [if_pos hp] at h
        exact List.mem_cons.mpr (Or.inr (ih h))
      · rw [if_neg hp] at h
        exact h

theorem mem_of_mem_trimNewlinesRight {a : Char} {l : List Char}
    (h : a ∈ trimNewlinesRight l) : a ∈ l := by
  unfold trimNewlinesRight at h
  have h1 := List.mem_reverse.mp h
  have h2 := mem_of_dropWhile_mem h1
  exact List.mem_reverse.mp h2

theorem crlfScan_false_of_no_cr : ∀ {l : List Char}, '\r' ∉ l → crlfScanChars l = false := by
  intro l
  induction l using crlfScanChars.induct with
  | case1 => intro _; rfl
  | case2 rest => intro h; simp at h
  | case3 ch rest hne ih =>
      intro h
      rw [crlfScanChars]
      · exact ih (fun hm => h (List.mem_cons.mpr (Or.inr hm)))
      · exact hne

/-! ### Ordered-list rendering -/

theorem visit_textItem (c : Conv) (b : Bool) (t : String) :
    visit c b (textItem t) = writeTextChars c t.data := by
  simp [textItem, visit, visitChildren, writeText]

theorem visitOrderedItems_textItems :
    ∀ (ts : List String) (c : Conv) (start i : Nat),
      (visitOrderedItems c start i (ts.map textItem)).out =
          c.out ++ orderedRender start i ts ∧
        (visitOrderedItems c start i (ts.map textItem)).entities = c.entities := by
  intro ts
  induction ts with
  | nil => intro c start i; simp [visitOrderedItems, orderedRender]
  | cons t ts ih =>
      intro c start i
      have hdec : normalizeChars (natDecimal (i + start) ++ ". ".data) =
          natDecimal (i + start) ++ ". ".data := by
        apply normalizeChars_of_no_cr
        intro hm
        rcases List.mem_append.mp hm with hm | hm
        · exact no_cr_natDecimal _ hm
        · simp at hm
      have hnl : normalizeChars ("\n".data) = "\n".data := by decide
      have hstep : visitOrderedItems c start i ((t :: ts).map textItem) =
          visitOrderedItems
            (writeTextChars
              (writeTextChars (writeTextChars c (natDecimal (i + start) ++ ". ".data)) t.data)
              ("\n".data))
            start (i + 1) (ts.map textItem) := by
        simp only [List.map_cons, visitOrderedItems, visit_textItem, writeText]
      obtain ⟨iho, ihe⟩ := ih
        (writeTextChars
          (writeTextChars (writeTextChars c (natDecimal (i + start) ++ ". ".data)) t.data)
          ("\n".data)) start (i + 1)
      rw [hstep]
      constructor
      · rw [iho]
        simp only [writeTextChars, hdec, hnl]
        simp [orderedRender, List.append_assoc]
      · rw [ihe]
        rfl

/-! ### The claims -/

/-- C1.  The claimed invariant `0 ≤ offset ∧ offset + length ≤ utf16_length(text)`
fails on the code: for the input whose tree is `c1Tree` (a fenced code block at
the end of the input), `Parse` returns the trimmed text `"X"` of UTF-16 length
1 but a `code_block` entity with `offset = 0` and `length = 2`, because the
entity length was computed before `Result` trimmed the trailing newline of the
code block's literal.  The returned entity extends past the end of the
returned text. -/
theorem Parse_codeBlock_entity_exceeds_text_c1 :
    parseTree c1Tree =
        ("X", [{ type := .codeBlock, offset := 0, length := 2, url := "", language := "" }]) ∧
      utf16LenChars (parseTree c1Tree).1.data = 1 ∧
      ∃ e ∈ (parseTree c1Tree).2,
        utf16LenChars (parseTree c1Tree).1.data < e.offset + e.length := by
  decide

/-- C2 (counterexample).  The claim says annotations are ordered with a parent
(outer) annotation before every annotation of its children, in the order spans
were opened.  On the tree of `"**a *b* c**"` the converter returns the inner
italic annotation (span `[2, 3)`) before the outer bold annotation (span
`[0, 5)`), because `converter.begin`'s closure appends entities when a scope
is closed, and inner scopes close first. -/
theorem Parse_parent_first_counterexample_c2 :
    (parseTree c2Tree).2 =
        [{ type := .italic, offset := 2, length := 1, url := "", language := "" },
         { type := .bold, offset := 0, length := 5, url := "", language := "" }] ∧
      ¬ specParentFirstOrder (parseTree c2Tree).2 := by
  have he : (parseTree c2Tree).2 =
      [{ type := .italic, offset := 2, length := 1, url := "", language := "" },
       { type := .bold, offset := 0, length := 5, url := "", language := "" }] := by decide
  refine ⟨he, ?_⟩
  unfold specParentFirstOrder
  rw [he]
  intro hpw
  rcases hpw with _ | ⟨hrel, _⟩
  exact (hrel _ (List.mem_cons_self _ _)) (by decide)

/-- C2 (amended).  The annotation list returned by `Parse` is ordered by the
position at which each span was *closed* during the depth-first traversal: the
end offsets `offset + length` are non-decreasing along the list, so a child
(inner) annotation never appears after an outer annotation that extends beyond
it, and sibling annotations appear in document order. -/
theorem Parse_entities_close_order_c2 (doc : Node) :
    List.Pairwise (fun a b => a.offset + a.length ≤ b.offset + b.length) (parseTree doc).2 := by
  have h := (convert_inv doc).2.2
  simpa [entityEnd, parseTree, Result] using h

/-- C3 (counterexample).  The claim says an exception thrown by the external
tree parser is caught inside `Parse`, which then returns the original input
text unchanged with an empty entity list.  The Go body of `Parse` contains no
`recover`: modelling the failing parser as returning an error, `Parse` propagates
the error instead of returning `("x", [])`. -/
theorem Parse_error_not_caught_counterexample_c3 :
    ParseWith failingTreeParserModel "x" = .error () ∧
      ParseWith failingTreeParserModel "x" ≠ .ok ("x", ([] : List MessageEntity)) := by
  constructor
  · rfl
  · simp [ParseWith, failingTreeParserModel]

/-- C3 (amended).  `Parse` has no error handling of its own: with a total
(fail-open) external tree parser — the actual `gomarkdown` configuration,
which renders malformed markdown as literal text — `Parse` always returns
normally, applying the converter to whatever tree the parser produced; but a
parser failure would propagate out of `Parse` unchanged rather than be caught. -/
theorem Parse_totality_and_propagation_c3 {ε : Type} (p : String → Node)
    (q : String → Except ε Node) (s : String) (e : ε) (h : q s = .error e) :
    ParseWith (fun x => (Except.ok (p x) : Except ε Node)) s = .ok (parseTree (p s)) ∧
      ParseWith q s = .error e := by
  constructor
  · rfl
  · simp [ParseWith, h]

/-- Witness for C3's amended theorem at a concrete total parser, a concrete
failing parser, and a concrete input. -/
theorem Parse_totality_and_propagation_c3_witness :
    ParseWith (fun x => (Except.ok ((fun _ => Node.document []) x) : Except Unit Node)) "x" =
        .ok (parseTree ((fun _ => Node.document []) "x")) ∧
      ParseWith failingTreeParserModel "x" = Except.error () :=
  Parse_totality_and_propagation_c3 (fun _ => Node.document []) failingTreeParserModel "x" () rfl

/-- C4.  The position tracker's running offset equals the UTF-16 code-unit
length of all text appended so far (after newline normalization): for every
tree the converter's final `curUnits` recounts the output buffer through
`utf16Len`, which advances by 1 per scalar value with codepoint at most
0xFFFF and by 2 otherwise.  All entity offsets and lengths are taken from
`curUnits` snapshots (`converter.begin`), never from byte or rune counts. -/
theorem Parse_tracker_utf16_c4 :
    (∀ doc : Node, (convert doc).curUnits = utf16LenChars (convert doc).out) ∧
      (∀ (ch : Char) (rest : List Char),
        utf16LenChars (ch :: rest) =
          (if ch.toNat ≤ 0xFFFF then 1 else 2) + utf16LenChars rest) := by
  constructor
  · intro doc
    exact (convert_inv doc).1
  · intro ch rest
    rfl

/-- C5.  On the input whose tree is `c5Tree` (`"Hello"`, blank line, then a
`bash` fenced code block), `Parse` ensures a single newline separator and
attaches the info string as the entity's language, but does *not* trim the
block's trailing newline from its literal content: the entity length is 12
(covering `"Source Code\n"`), not the claimed 11, and it extends one code
unit past the end of the trimmed text `"Hello\nSource Code"`. -/
theorem Parse_codeBlock_untrimmed_c5 :
    parseTree c5Tree =
        ("Hello\nSource Code",
          [{ type := .codeBlock, offset := 6, length := 12, url := "", language := "bash" }]) ∧
      (parseTree c5Tree).2 ≠
        [{ type := .codeBlock, offset := 6, length := 11, url := "", language := "bash" }] := by
  constructor <;> decide

/-- C6.  A blockquote is rendered with no inserted separator and wrapped in
exactly one blockquote annotation: on the tree of `"Hello\n> Quote"` the
result is `("HelloQuote", [{blockquote, offset 5, length 5}])`; and for every
state and child list, visiting a blockquote writes exactly what visiting its
children writes and appends exactly one blockquote entity spanning it. -/
theorem Parse_blockquote_no_separator_c6 :
    parseTree c6Tree =
        ("HelloQuote",
          [{ type := .blockquote, offset := 5, length := 5, url := "", language := "" }]) ∧
      ∀ (c : Conv) (hp : Bool) (cs : List Node),
        (visit c hp (.blockQuote cs)).out = (visitChildren c 0 cs).out ∧
          (visit c hp (.blockQuote cs)).entities = (visitChildren c 0 cs).entities ++
            [{ type := .blockquote, offset := c.curUnits,
               length := (visitChildren c 0 cs).curUnits - c.curUnits,
               url := "", language := "" }] := by
  refine ⟨by decide, ?_⟩
  intro c hp cs
  constructor
  · simp [visit, endScope]
  · simp [visit, endScope]

/-- C7.  A heading is rendered with two newlines before its content and one
after; an underline annotation spans exactly the heading text, and a bold
annotation over the identical span is added exactly when the level is 1:
on `"# Hello World!"` both `{underline, 2, 12}` and `{bold, 2, 12}` are
produced at the same offset, on `"## Hi"` only the underline; and for every
state and child list the heading visitor appends the underline (and, iff
`level = 1`, the bold) over the span opened after the two newlines. -/
theorem Parse_heading_bold_underline_c7 :
    parseTree c7Tree =
        ("\n\nHello World!",
          [{ type := .underline, offset := 2, length := 12, url := "", language := "" },
           { type := .bold, offset := 2, length := 12, url := "", language := "" }]) ∧
      parseTree c7TreeH2 =
        ("\n\nHi", [{ type := .underline, offset := 2, length := 2, url := "", language := "" }]) ∧
      ∀ (c : Conv) (hp : Bool) (level : Nat) (cs : List Node),
        (visit c hp (.heading level cs)).entities =
          (visitChildren (writeText c "\n\n") 0 cs).entities ++
            ([{ type := .underline, offset := (writeText c "\n\n").curUnits,
                length := (visitChildren (writeText c "\n\n") 0 cs).curUnits -
                  (writeText c "\n\n").curUnits, url := "", language := "" }] ++
              (if level = 1 then
                [{ type := .bold, offset := (writeText c "\n\n").curUnits,
                   length := (visitChildren (writeText c "\n\n") 0 cs).curUnits -
                     (writeText c "\n\n").curUnits, url := "", language := "" }]
               else [])) := by
  refine ⟨by decide, by decide, ?_⟩
  intro c hp level cs
  by_cases hl : level = 1 <;> simp [visit, endScope, writeText, writeTextChars, hl]

/-- C8 (counterexample).  The claim says an ordered-list item is prefixed with
the bullet glyph `"• "` followed by its 1-based position, independent of the
source numbering.  On the tree of `"3. Item"` (an ordered list with start
value 3, which the parser's ordered-list-start extension preserves) the code
renders `"3. Item"`: there is no bullet glyph and the index follows the
source's start value, not the 1-based position. -/
theorem Parse_ordered_list_counterexample_c8 :
    parseTree c8Tree = ("3. Item", []) ∧
      (parseTree c8Tree).1.data.take 2 ≠ "• ".data := by
  constructor <;> decide

/-- C8 (amended).  An ordered-list item at 0-based position `i` is rendered as
the literal decimal index `i + start` followed by `". "` and the item content
and a newline — with no bullet glyph — where `start` is the list's source
start value (0 normalized to 1); only positions after the first are
renumbered relative to that start. -/
theorem Parse_ordered_list_rendering_c8 (ts : List String) (start : Nat) :
    parseTree (.document [.list true start (ts.map textItem)]) =
      (String.mk (trimNewlinesRight (orderedRender (if start = 0 then 1 else start) 0 ts)), []) := by
  have h := visitOrderedItems_textItems ts initConv (if start = 0 then 1 else start) 0
  have hc : convert (.document [.list true start (ts.map textItem)]) =
      visitOrderedItems initConv (if start = 0 then 1 else start) 0 (ts.map textItem) := by
    simp [convert, visit, visitChildren, ensureNewline, initConv]
  rw [parseTree, Result, hc, h.2]
  rw [show (visitOrderedItems initConv (if start = 0 then 1 else start) 0
    (ts.map textItem)).out = orderedRender (if start = 0 then 1 else start) 0 ts from h.1]
  rfl

/-- C9.  Empty or whitespace-only input yields `("", [])`: the external
CommonMark parser produces a childless document for such input (modelled from
the spec), and the converter returns the empty string and no entities for a
childless document. -/
theorem Parse_blank_input_c9 (p : String → Node) (s : String)
    (hparse : ∀ x, isBlank x = true → p x = .document [])
    (hs : isBlank s = true) : ParseT p s = ("", []) := by
  rw [ParseT, hparse s hs]
  rfl

/-- Witness for C9 at the empty string and the modelled parser. -/
theorem Parse_blank_input_c9_witness :
    isBlank "" = true ∧ ParseT (fun _ => Node.document []) "" = ("", []) :=
  ⟨by decide, Parse_blank_input_c9 (fun _ => Node.document []) "" (fun _ _ => rfl) (by decide)⟩

/-- C10 (counterexample).  The claim says the output never contains a CR LF
sequence.  On the tree of a fenced code block whose verbatim content is
`"x\r\r\ny\n"` (a stray CR before a CR LF line ending), the single
left-to-right replacement pass of `writeText` turns `\r\r\n` into `\r\n`, so
the returned text `"x\r\ny"` does contain CR LF. -/
theorem Parse_crlf_survives_counterexample_c10 :
    (parseTree c10Tree).1 = "x\r\ny" ∧ hasCRLF (parseTree c10Tree).1 = true := by
  constructor <;> decide

/-- C10 (amended).  Every string appended to the output buffer first has its
CR LF occurrences replaced by LF in a single left-to-right pass
(`converter.writeText`), and all UTF-16 accounting is performed on the
normalized text; consequently, whenever every carriage return in the tree's
literals is immediately followed by a line feed (the ordinary CRLF-newline
case), the returned text contains no carriage return at all, hence no CR LF —
but a literal containing `\r\r\n` leaves a CR LF in the output. -/
theorem Parse_no_crlf_of_clean_c10 (doc : Node) (h : treeClean doc = true) :
    '\r' ∉ (parseTree doc).1.data ∧ hasCRLF (parseTree doc).1 = false := by
  have hout := convert_clean doc h
  have hmem : '\r' ∉ (parseTree doc).1.data := by
    intro hm
    exact hout (mem_of_mem_trimNewlinesRight hm)
  exact ⟨hmem, crlfScan_false_of_no_cr hmem⟩

/-- Witness for C10's amended theorem: a code block using CR LF line endings
is clean, and the resulting text has no carriage return and no CR LF. -/
theorem Parse_no_crlf_of_clean_c10_witness :
    treeClean c10WitnessTree = true ∧
      ('\r' ∉ (parseTree c10WitnessTree).1.data ∧
        hasCRLF (parseTree c10WitnessTree).1 = false) :=
  ⟨by decide, Parse_no_crlf_of_clean_c10 c10WitnessTree (by decide)⟩
